import Mathlib

set_option maxRecDepth 100000
set_option maxHeartbeats 2000000

/-!
Shallow embedding of the 53-tone Pythagorean tuning generator found in
src/PythagoreanSystem.py and src/SistemaPitagorico.py.

Python Fraction values are modelled as ℚ.  The conversion float(q) of an
exact Fraction to an IEEE-754 binary64 value is correctly rounded
(round-to-nearest, ties-to-even, 53-bit significand); it is modelled
exactly by floatOfRat below, ignoring overflow and subnormals, which are
unreachable for the magnitudes this program produces.
-/

/-- Fuel-driven base-2 logarithm on ℕ: per fuel unit the argument shrinks
by 64 bits at once when it is that large, else by one bit, keeping the
recursion shallow on very large inputs. -/
def log2Fuel : ℕ → ℕ → ℕ
  | 0, _ => 0
  | f + 1, n =>
    if 18446744073709551616 ≤ n then log2Fuel f (n / 18446744073709551616) + 64
    else if 2 ≤ n then log2Fuel f (n / 2) + 1
    else 0

/-- Base-2 logarithm of a natural number (0 for n = 0). -/
def log2N (n : ℕ) : ℕ := log2Fuel n n

/-- Two raised to an integer power, as a rational. -/
def pow2 (e : ℤ) : ℚ :=
  if 0 ≤ e then ((2 ^ e.toNat : ℕ) : ℚ) else (((2 ^ (-e).toNat : ℕ) : ℚ))⁻¹

/-- Binade exponent: the greatest e with 2 ^ e ≤ q, for q > 0. -/
def ratExp (q : ℚ) : ℤ :=
  if 1 ≤ q then (log2N (⌊q⌋).toNat : ℤ)
  else
    let k : ℤ := (log2N (⌊q⁻¹⌋).toNat : ℤ)
    if pow2 (-k) ≤ q then -k else -k - 1

/-- Round a rational to the nearest integer, ties going to the even integer. -/
def roundHalfEven (x : ℚ) : ℤ :=
  if x - ⌊x⌋ < 1 / 2 then ⌊x⌋
  else if 1 / 2 < x - ⌊x⌋ then ⌊x⌋ + 1
  else if ⌊x⌋ % 2 = 0 then ⌊x⌋ else ⌊x⌋ + 1

/-- The scale exponent binary64 rounds at: the binade exponent, clamped
below at -1022, the smallest normal exponent; below it the rounding
granularity stays fixed at 2^(-1074) (subnormal range, flushing tiny
values to zero). -/
def floatScale (q : ℚ) : ℤ := max (ratExp q) (-1022)

/-- The binary64 value nearest to a positive rational: q is scaled by
2^(52 - floatScale q) and rounded to the nearest integer, ties to even,
so the unit in the last place is 2^(floatScale q - 52), exactly the
binary64 granularity also through the subnormal range. -/
def floatPos (q : ℚ) : ℚ :=
  (roundHalfEven (q * pow2 (52 - floatScale q)) : ℚ) * pow2 (floatScale q - 52)

/-- Model of the correctly rounded conversion of an exact rational to an
IEEE-754 binary64 value, as performed by Python when a Fraction is fed to
float() or divided out as numerator / denominator: round to nearest, ties
to even, with subnormal granularity below 2^(-1022), so values below
2^(-1075) flush to zero.  Magnitudes that round to 2^1024 or beyond make
the Python conversion raise OverflowError instead of returning a float;
floatOverflows below captures exactly that condition. -/
def floatOfRat (q : ℚ) : ℚ :=
  if q = 0 then 0
  else if q < 0 then -(floatPos (-q)) else floatPos q

/-- The conversion float(q) raises OverflowError in Python exactly when
the correctly rounded magnitude reaches 2^1024, the first value beyond
the largest finite binary64 number. -/
def floatOverflows (q : ℚ) : Prop := pow2 1024 ≤ |floatOfRat q|

/-- One fuel-counted pass of the reduction loop of generate_ratios:
while the value is at least 2, halve it. -/
def reduceLoop : ℕ → ℚ → ℚ
  | 0, q => q
  | f + 1, q => if 2 ≤ q then reduceLoop f (q / 2) else q

/-- The octave-reduction while loop of generate_ratios / genera_rapporti
(lines 59-60 of src/PythagoreanSystem.py): while next >= 2, divide by 2.
The fuel q.num.natAbs is enough to reach the loop exit; the equation
reduceOctave_eq below shows this definition satisfies the while-loop
unfolding exactly. -/
def reduceOctave (q : ℚ) : ℚ := reduceLoop q.num.natAbs q

/-- State of one computation of src/PythagoreanSystem.py: the effective
fundamental and the two sequences computed by the constructor. -/
structure PythagoreanSystem where
  fundamental : ℚ
  ratios : List ℚ
  frequencies : List ℚ

namespace PythagoreanSystem

/-- The generation loop body, iterated n times: each step multiplies the
last produced value by the perfect fifth 3/2 and reduces into the octave. -/
def genLoop : ℚ → ℕ → List ℚ
  | _, 0 => []
  | last, n + 1 =>
    let next := reduceOctave (last * (3 / 2))
    next :: genLoop next n

/-- PythagoreanSystem.generate_ratios: start from the unison 1/1 and apply
the fifth-and-reduce step for the 52 iterations of range(1, 53). -/
def generate_ratios : List ℚ := 1 :: genLoop 1 52

/-- PythagoreanSystem.sort_ratios: Python list.sort is a stable ascending
sort on the key numerator / denominator, a correctly rounded binary64
quotient; a stable insertion sort on that key computes the same output. -/
def sort_ratios (l : List ℚ) : List ℚ :=
  l.insertionSort (fun a b => floatOfRat a ≤ floatOfRat b)

/-- PythagoreanSystem.calculate_frequencies: float(r * fundamental) for
each stored r, in order. -/
def calculate_frequencies (l : List ℚ) (fundamental : ℚ) : List ℚ :=
  l.map (fun r => floatOfRat (r * fundamental))

/-- The constructor of PythagoreanSystem: effective fundamental is
fundamental * octave; ratios are generated then sorted in place; the
frequencies are computed from the sorted ratios. -/
def create (fundamental octave : ℚ) : PythagoreanSystem :=
  ⟨fundamental * octave, sort_ratios generate_ratios,
    calculate_frequencies (sort_ratios generate_ratios) (fundamental * octave)⟩

end PythagoreanSystem

/-- State of one computation of src/SistemaPitagorico.py. -/
structure SistemaPitagorico where
  fondamentale : ℚ
  rapporti : List ℚ
  frequenze : List ℚ

namespace SistemaPitagorico

/-- The generation loop of genera_rapporti, iterated n times. -/
def cicloGen : ℚ → ℕ → List ℚ
  | _, 0 => []
  | ultimo, n + 1 =>
    let prossimo := reduceOctave (ultimo * (3 / 2))
    prossimo :: cicloGen prossimo n

/-- SistemaPitagorico.genera_rapporti: unison followed by 52 fifth steps. -/
def genera_rapporti : List ℚ := 1 :: cicloGen 1 52

/-- SistemaPitagorico.ordina_rapporti: same stable sort on the same
float key numerator / denominator. -/
def ordina_rapporti (l : List ℚ) : List ℚ :=
  l.insertionSort (fun a b => floatOfRat a ≤ floatOfRat b)

/-- SistemaPitagorico.calcola_frequenze. -/
def calcola_frequenze (l : List ℚ) (fondamentale : ℚ) : List ℚ :=
  l.map (fun r => floatOfRat (r * fondamentale))

/-- The constructor of SistemaPitagorico: effective fundamental is
fondamentale * ottava. -/
def crea (fondamentale ottava : ℚ) : SistemaPitagorico :=
  ⟨fondamentale * ottava, ordina_rapporti genera_rapporti,
    calcola_frequenze (ordina_rapporti genera_rapporti) (fondamentale * ottava)⟩

end SistemaPitagorico

/-- C1: every one of the 53 ratios produced by generate_ratios lies in the
half-open octave [1, 2), and the value 1 occurs only at index 0, the
unison. -/
theorem c1_generated_in_octave :
    ∀ i : Fin PythagoreanSystem.generate_ratios.length,
      1 ≤ PythagoreanSystem.generate_ratios.get i ∧
      PythagoreanSystem.generate_ratios.get i < 2 ∧
      (PythagoreanSystem.generate_ratios.get i = 1 → i.val = 0) := by
  with_unfolding_all decide

/-- Witness for C1 at the concrete index 2: the third generated ratio is
in the octave and differs from 1. -/
theorem c1_generated_in_octave_witness :
    1 ≤ PythagoreanSystem.generate_ratios.get ⟨2, by with_unfolding_all decide⟩ ∧
    PythagoreanSystem.generate_ratios.get ⟨2, by with_unfolding_all decide⟩ < 2 ∧
    (PythagoreanSystem.generate_ratios.get ⟨2, by with_unfolding_all decide⟩ = 1 →
      (2 : ℕ) = 0) :=
  c1_generated_in_octave ⟨2, by with_unfolding_all decide⟩

/-- C4: the generated sequence has exactly 53 entries, exactly one of them
equals 1/1, and all 53 are pairwise distinct exact rationals. -/
theorem c4_generated_count_and_distinct :
    PythagoreanSystem.generate_ratios.length = 53 ∧
    PythagoreanSystem.generate_ratios.count 1 = 1 ∧
    PythagoreanSystem.generate_ratios.Nodup := by
  refine ⟨by with_unfolding_all decide, by with_unfolding_all decide,
    by with_unfolding_all decide⟩

/-- The generated sequence has 53 entries (helper shared by several
results below). -/
theorem generated_length : PythagoreanSystem.generate_ratios.length = 53 := by
  with_unfolding_all decide

/-- The sorted sequence is pairwise ordered by exact rational value, and
every entry is at least 1 (helper shared by several results below). -/
theorem sorted_pairwise :
    (PythagoreanSystem.sort_ratios PythagoreanSystem.generate_ratios).Pairwise
      (fun a b : ℚ => 1 ≤ a ∧ a ≤ b) := by
  with_unfolding_all decide

/-- C3: sorting is a permutation of the generated sequence: the multiset of
exact values is unchanged, and the length stays 53. -/
theorem c3_sort_is_permutation :
    (PythagoreanSystem.sort_ratios PythagoreanSystem.generate_ratios).Perm
      PythagoreanSystem.generate_ratios ∧
    ((PythagoreanSystem.sort_ratios PythagoreanSystem.generate_ratios : Multiset ℚ) =
      (PythagoreanSystem.generate_ratios : Multiset ℚ)) ∧
    (PythagoreanSystem.sort_ratios PythagoreanSystem.generate_ratios).length = 53 := by
  have hp : (PythagoreanSystem.sort_ratios PythagoreanSystem.generate_ratios).Perm
      PythagoreanSystem.generate_ratios :=
    List.perm_insertionSort _ _
  exact ⟨hp, Multiset.coe_eq_coe.mpr hp, hp.length_eq.trans generated_length⟩

/-- Denominator exponents of the 53 generated ratios: entry k is the m with
2^m ≤ 3^k < 2^(m+1). -/
def denExps : List ℕ :=
  [0, 1, 3, 4, 6, 7, 9, 11, 12, 14, 15, 17, 19, 20, 22, 23, 25, 26,
   28, 30, 31, 33, 34, 36, 38, 39, 41, 42, 44, 45, 47, 49, 50, 52, 53,
   55, 57, 58, 60, 61, 63, 64, 66, 68, 69, 71, 72, 74, 76, 77, 79, 80, 82]

/-- C10: the k-th generated entry is 3^k over a power of two, in lowest
terms: its numerator is exactly 3^k, its denominator is the power of two
listed in denExps, positive, and numerator and denominator are coprime. -/
theorem c10_generated_shape :
    ∀ i : Fin PythagoreanSystem.generate_ratios.length,
      (PythagoreanSystem.generate_ratios.get i).num = ((3 ^ i.val : ℕ) : ℤ) ∧
      (PythagoreanSystem.generate_ratios.get i).den = 2 ^ (denExps.getD i.val 0) ∧
      0 < (PythagoreanSystem.generate_ratios.get i).den ∧
      Nat.gcd (PythagoreanSystem.generate_ratios.get i).num.natAbs
        (PythagoreanSystem.generate_ratios.get i).den = 1 := by
  with_unfolding_all decide

/-- Witness for C10 at index 2: the third generated entry is 9/8. -/
theorem c10_generated_shape_witness :
    (PythagoreanSystem.generate_ratios.get ⟨2, by with_unfolding_all decide⟩).num =
      ((3 ^ 2 : ℕ) : ℤ) ∧
    (PythagoreanSystem.generate_ratios.get ⟨2, by with_unfolding_all decide⟩).den =
      2 ^ (denExps.getD 2 0) ∧
    0 < (PythagoreanSystem.generate_ratios.get ⟨2, by with_unfolding_all decide⟩).den ∧
    Nat.gcd (PythagoreanSystem.generate_ratios.get
        ⟨2, by with_unfolding_all decide⟩).num.natAbs
      (PythagoreanSystem.generate_ratios.get ⟨2, by with_unfolding_all decide⟩).den = 1 :=
  c10_generated_shape ⟨2, by with_unfolding_all decide⟩

/-- C2: after sorting, adjacent entries are non-decreasing in the exact
rational order. -/
theorem c2_sorted_nondecreasing :
    ∀ i, i < (PythagoreanSystem.sort_ratios PythagoreanSystem.generate_ratios).length - 1 →
      (PythagoreanSystem.sort_ratios PythagoreanSystem.generate_ratios).getD i 0 ≤
      (PythagoreanSystem.sort_ratios PythagoreanSystem.generate_ratios).getD (i + 1) 0 := by
  with_unfolding_all decide

/-- Witness for C2 at the adjacent pair (0, 1). -/
theorem c2_sorted_nondecreasing_witness :
    0 < (PythagoreanSystem.sort_ratios PythagoreanSystem.generate_ratios).length - 1 ∧
    (PythagoreanSystem.sort_ratios PythagoreanSystem.generate_ratios).getD 0 0 ≤
      (PythagoreanSystem.sort_ratios PythagoreanSystem.generate_ratios).getD 1 0 :=
  ⟨by with_unfolding_all decide, c2_sorted_nondecreasing 0 (by with_unfolding_all decide)⟩

/-- If the loop guard fails, the reduction loop is the identity for any
fuel. -/
theorem reduceLoop_of_lt (f : ℕ) (q : ℚ) (h : ¬ 2 ≤ q) : reduceLoop f q = q := by
  cases f <;> simp [reduceLoop, h]

/-- Extra fuel after the loop has exited does not change the result. -/
theorem reduceLoop_add (k : ℕ) :
    ∀ (f : ℕ) (q : ℚ), ¬ 2 ≤ reduceLoop f q → reduceLoop (f + k) q = reduceLoop f q := by
  intro f
  induction f with
  | zero =>
    intro q h
    simp only [reduceLoop] at h
    simpa [reduceLoop, Nat.zero_add] using reduceLoop_of_lt k q h
  | succ f ih =>
    intro q h
    by_cases h2 : 2 ≤ q
    · have harr : f + 1 + k = f + k + 1 := by omega
      rw [harr]
      simp only [reduceLoop, if_pos h2] at h ⊢
      exact ih (q / 2) h
    · have harr : f + 1 + k = f + k + 1 := by omega
      rw [harr]
      simp only [reduceLoop, if_neg h2]

/-- Halving a value that is at least 2 strictly lowers its floor. -/
theorem floor_half_le (q : ℚ) (h2 : 2 ≤ q) : ⌊q / 2⌋ ≤ ⌊q⌋ - 1 := by
  have hle : q / 2 ≤ q - 1 := by linarith
  calc ⌊q / 2⌋ ≤ ⌊q - 1⌋ := Int.floor_le_floor hle
    _ = ⌊q - (1 : ℤ)⌋ := by norm_num
    _ = ⌊q⌋ - 1 := Int.floor_sub_int q 1

/-- Fuel at least the floor of the value drives the loop to its exit. -/
theorem reduceLoop_floor (f : ℕ) : ∀ q : ℚ, (⌊q⌋).toNat ≤ f → ¬ 2 ≤ reduceLoop f q := by
  induction f with
  | zero =>
    intro q hq
    have h0 : ⌊q⌋ ≤ 0 := by omega
    have hlt : q < 1 := by
      have h1 := Int.lt_floor_add_one q
      have h2 : ((⌊q⌋ : ℚ) + 1) ≤ 0 + 1 := by
        have : (⌊q⌋ : ℚ) ≤ 0 := by exact_mod_cast h0
        linarith
      linarith
    simp only [reduceLoop]
    linarith
  | succ f ih =>
    intro q hq
    by_cases h2 : 2 ≤ q
    · simp only [reduceLoop, if_pos h2]
      apply ih
      have hfl : ⌊q / 2⌋ ≤ ⌊q⌋ - 1 := floor_half_le q h2
      have h2' : (2 : ℤ) ≤ ⌊q⌋ := Int.le_floor.mpr (by exact_mod_cast h2)
      omega
    · simp only [reduceLoop, if_neg h2]
      exact h2

/-- Any sufficient fuel computes the same result as the canonical fuel. -/
theorem reduceLoop_fuel_eq (f : ℕ) (q : ℚ) (h : (⌊q⌋).toNat ≤ f) :
    reduceLoop f q = reduceLoop (⌊q⌋).toNat q := by
  have hx := reduceLoop_add (f - (⌊q⌋).toNat) ((⌊q⌋).toNat) q
    (reduceLoop_floor _ q le_rfl)
  rw [← hx]
  congr 1
  omega

/-- The floor of a rational never exceeds its numerator in absolute value. -/
theorem floor_toNat_le_natAbs (q : ℚ) : (⌊q⌋).toNat ≤ q.num.natAbs := by
  rcases le_or_lt q 0 with h | h
  · have h0 : ⌊q⌋ ≤ 0 := Int.floor_nonpos h
    omega
  · have hden : (1 : ℚ) ≤ (q.den : ℚ) := by
      have h1 : (1 : ℕ) ≤ q.den := q.pos
      exact_mod_cast h1
    have hq : q ≤ (q.num : ℚ) := by
      conv_lhs => rw [← Rat.num_div_den q]
      exact div_le_self (by exact_mod_cast le_of_lt (Rat.num_pos.mpr h)) hden
    have h1 : ⌊q⌋ ≤ q.num := by
      calc ⌊q⌋ ≤ ⌊(q.num : ℚ)⌋ := Int.floor_le_floor hq
        _ = q.num := Int.floor_intCast _
    have h2 : 0 < q.num := Rat.num_pos.mpr h
    omega

/-- reduceOctave satisfies the while-loop unfolding of the source exactly:
while the value is at least 2, divide by 2, else stop. -/
theorem reduceOctave_eq (q : ℚ) :
    reduceOctave q = if 2 ≤ q then reduceOctave (q / 2) else q := by
  by_cases h2 : 2 ≤ q
  · rw [if_pos h2]
    unfold reduceOctave
    rw [reduceLoop_fuel_eq _ _ (floor_toNat_le_natAbs q),
        reduceLoop_fuel_eq _ _ (floor_toNat_le_natAbs (q / 2))]
    have h2' : (2 : ℤ) ≤ ⌊q⌋ := Int.le_floor.mpr (by exact_mod_cast h2)
    have hfl : ⌊q / 2⌋ ≤ ⌊q⌋ - 1 := floor_half_le q h2
    obtain ⟨m, hm⟩ : ∃ m, (⌊q⌋).toNat = m + 1 := ⟨(⌊q⌋).toNat - 1, by omega⟩
    rw [hm]
    simp only [reduceLoop, if_pos h2]
    exact reduceLoop_fuel_eq m (q / 2) (by omega)
  · rw [if_neg h2]
    exact reduceLoop_of_lt _ _ h2

/-- C8: for any value x in [1, 2), the fifth step lands strictly below 4,
the reduction loop body runs at most once (the result equals one
conditional halving), and the reduced value is back in [1, 2). -/
theorem c8_single_halving (x : ℚ) (h1 : 1 ≤ x) (h2 : x < 2) :
    x * (3 / 2) < 4 ∧
    reduceOctave (x * (3 / 2)) =
      (if 2 ≤ x * (3 / 2) then x * (3 / 2) / 2 else x * (3 / 2)) ∧
    1 ≤ reduceOctave (x * (3 / 2)) ∧ reduceOctave (x * (3 / 2)) < 2 := by
  have hy1 : (3 / 2 : ℚ) ≤ x * (3 / 2) := by nlinarith
  have hy2 : x * (3 / 2) < 3 := by nlinarith
  have hnotwice : ¬ (2 ≤ x * (3 / 2) / 2) := by
    intro h
    nlinarith
  have heq : reduceOctave (x * (3 / 2)) =
      if 2 ≤ x * (3 / 2) then x * (3 / 2) / 2 else x * (3 / 2) := by
    rw [reduceOctave_eq]
    by_cases hc : 2 ≤ x * (3 / 2)
    · rw [if_pos hc, if_pos hc, reduceOctave_eq, if_neg hnotwice]
    · rw [if_neg hc, if_neg hc]
  refine ⟨by linarith, heq, ?_, ?_⟩
  · rw [heq]
    by_cases hc : 2 ≤ x * (3 / 2)
    · rw [if_pos hc]; linarith
    · rw [if_neg hc]; linarith
  · rw [heq]
    by_cases hc : 2 ≤ x * (3 / 2)
    · rw [if_pos hc]; linarith
    · rw [if_neg hc]; linarith

/-- Witness for C8 at x = 3/2: both hypotheses hold and the step from 3/2
reduces with at most one halving into [1, 2). -/
theorem c8_single_halving_witness :
    (1 ≤ (3 / 2 : ℚ) ∧ (3 / 2 : ℚ) < 2) ∧
    ((3 / 2 : ℚ) * (3 / 2) < 4 ∧
      reduceOctave ((3 / 2 : ℚ) * (3 / 2)) =
        (if 2 ≤ (3 / 2 : ℚ) * (3 / 2) then (3 / 2 : ℚ) * (3 / 2) / 2
          else (3 / 2 : ℚ) * (3 / 2)) ∧
      1 ≤ reduceOctave ((3 / 2 : ℚ) * (3 / 2)) ∧
      reduceOctave ((3 / 2 : ℚ) * (3 / 2)) < 2) :=
  ⟨⟨by norm_num, by norm_num⟩, c8_single_halving (3 / 2) (by norm_num) (by norm_num)⟩

/-- With fuel at least n, log2Fuel computes the base-2 logarithm of n. -/
theorem log2Fuel_spec : ∀ (f n : ℕ), 1 ≤ n → n ≤ f →
    2 ^ (log2Fuel f n) ≤ n ∧ n < 2 ^ (log2Fuel f n + 1) := by
  intro f
  induction f with
  | zero =>
    intro n h1 h2
    exact absurd (le_trans h1 h2) (by decide)
  | succ f ih =>
    intro n h1 h2
    by_cases hbig : 18446744073709551616 ≤ n
    · have hq1 : 1 ≤ n / 18446744073709551616 :=
        (Nat.one_le_div_iff (by norm_num)).mpr hbig
      have hqf : n / 18446744073709551616 ≤ f := by
        have hhalf : n / 18446744073709551616 ≤ n / 2 :=
          Nat.div_le_div_left (by norm_num) (by norm_num)
        omega
      have hrec := ih (n / 18446744073709551616) hq1 hqf
      have hpow1 : (2 : ℕ) ^ (log2Fuel f (n / 18446744073709551616) + 64) =
          2 ^ (log2Fuel f (n / 18446744073709551616)) * 18446744073709551616 := by
        rw [pow_add]
        norm_num
      have hpow2 : (2 : ℕ) ^ (log2Fuel f (n / 18446744073709551616) + 64 + 1) =
          2 ^ (log2Fuel f (n / 18446744073709551616) + 1) * 18446744073709551616 := by
        rw [show log2Fuel f (n / 18446744073709551616) + 64 + 1 =
          log2Fuel f (n / 18446744073709551616) + 1 + 64 from by omega, pow_add]
        norm_num
      simp only [log2Fuel, if_pos hbig]
      omega
    · by_cases hn : 2 ≤ n
      · have hrec := ih (n / 2) (by omega) (by omega)
        have hpow1 : (2 : ℕ) ^ (log2Fuel f (n / 2) + 1) = 2 * 2 ^ (log2Fuel f (n / 2)) := by
          rw [pow_succ]; ring
        have hpow2 : (2 : ℕ) ^ (log2Fuel f (n / 2) + 1 + 1) =
            2 * 2 ^ (log2Fuel f (n / 2) + 1) := by
          rw [pow_succ _ (log2Fuel f (n / 2) + 1)]; ring
        simp only [log2Fuel, if_neg hbig, if_pos hn]
        omega
      · simp only [log2Fuel, if_neg hbig, if_neg hn]
        omega

/-- Specification of log2N on positive input. -/
theorem log2N_spec (n : ℕ) (h : 1 ≤ n) :
    2 ^ (log2N n) ≤ n ∧ n < 2 ^ (log2N n + 1) :=
  log2Fuel_spec n n h le_rfl

/-- pow2 agrees with the integer power of 2 in ℚ. -/
theorem pow2_eq_zpow (e : ℤ) : pow2 e = (2 : ℚ) ^ e := by
  unfold pow2
  by_cases he : 0 ≤ e
  · rw [if_pos he]
    push_cast
    rw [← zpow_natCast (2 : ℚ) e.toNat, Int.toNat_of_nonneg he]
  · rw [if_neg he]
    push_cast
    rw [← zpow_natCast (2 : ℚ) (-e).toNat, Int.toNat_of_nonneg (by omega : (0 : ℤ) ≤ -e),
      ← zpow_neg, neg_neg]

/-- pow2 is positive. -/
theorem pow2_pos (e : ℤ) : 0 < pow2 e := by
  rw [pow2_eq_zpow]
  positivity

/-- pow2 turns addition into multiplication. -/
theorem pow2_add (a b : ℤ) : pow2 (a + b) = pow2 a * pow2 b := by
  rw [pow2_eq_zpow, pow2_eq_zpow, pow2_eq_zpow]
  exact zpow_add₀ (by norm_num) a b

/-- pow2 is monotone. -/
theorem pow2_le_pow2 {a b : ℤ} (h : a ≤ b) : pow2 a ≤ pow2 b := by
  rw [pow2_eq_zpow, pow2_eq_zpow]
  exact zpow_le_zpow_right₀ (by norm_num) h

/-- pow2 is strictly monotone. -/
theorem pow2_lt_pow2 {a b : ℤ} (h : a < b) : pow2 a < pow2 b := by
  rw [pow2_eq_zpow, pow2_eq_zpow]
  exact zpow_lt_zpow_right₀ (by norm_num) h

/-- pow2 at a natural number is the natural power of two. -/
theorem pow2_natCast (L : ℕ) : pow2 (L : ℤ) = ((2 ^ L : ℕ) : ℚ) := by
  rw [pow2_eq_zpow, zpow_natCast]
  push_cast
  ring

/-- ratExp is correct for q at least 1: it is the base-2 logarithm of the
floor. -/
theorem ratExp_of_one_le (q : ℚ) (h1 : 1 ≤ q) :
    ratExp q = (log2N (⌊q⌋).toNat : ℤ) := by
  unfold ratExp
  rw [if_pos h1]

/-- The binade specification of ratExp: for positive q, pow2 (ratExp q) is
the largest power of two not exceeding q. -/
theorem ratExp_spec (q : ℚ) (hq : 0 < q) :
    pow2 (ratExp q) ≤ q ∧ q < pow2 (ratExp q + 1) := by
  by_cases h1 : 1 ≤ q
  · rw [ratExp_of_one_le q h1]
    have hfl : (1 : ℤ) ≤ ⌊q⌋ := Int.le_floor.mpr (by exact_mod_cast h1)
    have hn : 1 ≤ (⌊q⌋).toNat := by omega
    have hspec := log2N_spec _ hn
    have htn : (((⌊q⌋).toNat : ℤ)) = ⌊q⌋ := Int.toNat_of_nonneg (by omega)
    have hfloorq : (((⌊q⌋).toNat : ℕ) : ℚ) ≤ q := by
      have h4 := Int.floor_le q
      rw [← htn] at h4
      push_cast at h4 ⊢
      exact h4
    have hqlt : q < (((⌊q⌋).toNat : ℕ) : ℚ) + 1 := by
      have h4 := Int.lt_floor_add_one q
      rw [← htn] at h4
      push_cast at h4 ⊢
      exact h4
    constructor
    · rw [pow2_natCast]
      have h5 : ((2 ^ log2N (⌊q⌋).toNat : ℕ) : ℚ) ≤ (((⌊q⌋).toNat : ℕ) : ℚ) := by
        exact_mod_cast hspec.1
      linarith
    · rw [show ((log2N (⌊q⌋).toNat : ℤ) + 1) = ((log2N (⌊q⌋).toNat + 1 : ℕ) : ℤ) from by
        push_cast; ring]
      rw [pow2_natCast]
      have h5 : (((⌊q⌋).toNat : ℕ) : ℚ) + 1 ≤ ((2 ^ (log2N (⌊q⌋).toNat + 1) : ℕ) : ℚ) := by
        exact_mod_cast hspec.2
      linarith
  · have hq1 : q < 1 := not_le.mp h1
    have hinv1 : 1 ≤ q⁻¹ := one_le_inv_iff₀.mpr ⟨hq, le_of_lt hq1⟩
    have hk1 : (1 : ℤ) ≤ ⌊q⁻¹⌋ := Int.le_floor.mpr (by exact_mod_cast hinv1)
    have hkn : 1 ≤ (⌊q⁻¹⌋).toNat := by omega
    have hspec := log2N_spec _ hkn
    have htn : (((⌊q⁻¹⌋).toNat : ℤ)) = ⌊q⁻¹⌋ := Int.toNat_of_nonneg (by omega)
    have hlow : ((2 ^ log2N (⌊q⁻¹⌋).toNat : ℕ) : ℚ) ≤ q⁻¹ := by
      have h3 : (((⌊q⁻¹⌋).toNat : ℕ) : ℚ) ≤ q⁻¹ := by
        have h4 := Int.floor_le q⁻¹
        rw [← htn] at h4
        push_cast at h4 ⊢
        exact h4
      have h2 : ((2 ^ log2N (⌊q⁻¹⌋).toNat : ℕ) : ℚ) ≤ (((⌊q⁻¹⌋).toNat : ℕ) : ℚ) := by
        exact_mod_cast hspec.1
      linarith
    have hhigh : q⁻¹ < ((2 ^ (log2N (⌊q⁻¹⌋).toNat + 1) : ℕ) : ℚ) := by
      have h4 := Int.lt_floor_add_one q⁻¹
      rw [← htn] at h4
      push_cast at h4
      have h5 : (((⌊q⁻¹⌋).toNat : ℕ) : ℚ) + 1 ≤
          ((2 ^ (log2N (⌊q⁻¹⌋).toNat + 1) : ℕ) : ℚ) := by
        exact_mod_cast hspec.2
      linarith
    have hq_le : q ≤ pow2 (-(log2N (⌊q⁻¹⌋).toNat : ℤ)) := by
      rw [pow2_eq_zpow, zpow_neg, zpow_natCast]
      have hkpos : (0 : ℚ) < (2 : ℚ) ^ log2N (⌊q⁻¹⌋).toNat := by positivity
      have hlow2 : (2 : ℚ) ^ log2N (⌊q⁻¹⌋).toNat ≤ q⁻¹ := by
        rw [show ((2 : ℚ) ^ log2N (⌊q⁻¹⌋).toNat) =
            ((2 ^ log2N (⌊q⁻¹⌋).toNat : ℕ) : ℚ) from by push_cast; ring]
        exact hlow
      have h7 := inv_anti₀ hkpos hlow2
      rwa [inv_inv] at h7
    have hq_gt : pow2 (-(log2N (⌊q⁻¹⌋).toNat : ℤ) - 1) < q := by
      rw [pow2_eq_zpow]
      rw [show (-(log2N (⌊q⁻¹⌋).toNat : ℤ) - 1) = -((log2N (⌊q⁻¹⌋).toNat + 1 : ℕ) : ℤ) from by
        push_cast; ring]
      rw [zpow_neg, zpow_natCast]
      have hhigh2 : q⁻¹ < (2 : ℚ) ^ (log2N (⌊q⁻¹⌋).toNat + 1) := by
        rw [show ((2 : ℚ) ^ (log2N (⌊q⁻¹⌋).toNat + 1)) =
            ((2 ^ (log2N (⌊q⁻¹⌋).toNat + 1) : ℕ) : ℚ) from by push_cast; ring]
        exact hhigh
      have h7 := inv_strictAnti₀ (inv_pos.mpr hq) hhigh2
      rwa [inv_inv] at h7
    by_cases hcond : pow2 (-(log2N (⌊q⁻¹⌋).toNat : ℤ)) ≤ q
    · have he : ratExp q = -(log2N (⌊q⁻¹⌋).toNat : ℤ) := by
        unfold ratExp
        rw [if_neg h1, if_pos hcond]
      rw [he]
      exact ⟨hcond, lt_of_le_of_lt hq_le (pow2_lt_pow2 (by omega))⟩
    · have he : ratExp q = -(log2N (⌊q⁻¹⌋).toNat : ℤ) - 1 := by
        unfold ratExp
        rw [if_neg h1, if_neg hcond]
      rw [he]
      refine ⟨le_of_lt hq_gt, ?_⟩
      rw [show (-(log2N (⌊q⁻¹⌋).toNat : ℤ) - 1 + 1) = -(log2N (⌊q⁻¹⌋).toNat : ℤ) from by ring]
      exact not_le.mp hcond

/-- Rounding never goes below the floor. -/
theorem floor_le_roundHalfEven (x : ℚ) : ⌊x⌋ ≤ roundHalfEven x := by
  unfold roundHalfEven
  split_ifs <;> omega

/-- Rounding never goes above the floor plus one. -/
theorem roundHalfEven_le (x : ℚ) : roundHalfEven x ≤ ⌊x⌋ + 1 := by
  unfold roundHalfEven
  split_ifs <;> omega

/-- The rounded value exceeds the argument by at most one half. -/
theorem roundHalfEven_le_add_half (x : ℚ) : (roundHalfEven x : ℚ) ≤ x + 1 / 2 := by
  have hfl := Int.floor_le x
  have hlt := Int.lt_floor_add_one x
  unfold roundHalfEven
  split_ifs <;> push_cast <;> linarith

/-- The rounded value undershoots the argument by at most one half. -/
theorem sub_half_le_roundHalfEven (x : ℚ) : x - 1 / 2 ≤ (roundHalfEven x : ℚ) := by
  have hfl := Int.floor_le x
  have hlt := Int.lt_floor_add_one x
  unfold roundHalfEven
  split_ifs <;> push_cast <;> linarith

/-- Rounding to nearest, ties to even, is monotone. -/
theorem roundHalfEven_mono {x y : ℚ} (h : x ≤ y) : roundHalfEven x ≤ roundHalfEven y := by
  rcases lt_or_eq_of_le (Int.floor_le_floor h) with hfl | hfl
  · have h1 := roundHalfEven_le x
    have h2 := floor_le_roundHalfEven y
    omega
  · unfold roundHalfEven
    rw [← hfl]
    split_ifs <;> first | omega | (exfalso; rw [← hfl] at *; linarith)

/-- The binade exponent never exceeds the rounding scale. -/
theorem ratExp_le_floatScale (q : ℚ) : ratExp q ≤ floatScale q :=
  le_max_left _ _

/-- The rounding scale never drops below the subnormal exponent. -/
theorem neg1022_le_floatScale (q : ℚ) : (-1022 : ℤ) ≤ floatScale q :=
  le_max_right _ _

/-- In the normal range the rounding scale is the binade exponent. -/
theorem floatScale_of_normal (q : ℚ) (hn : (-1022 : ℤ) ≤ ratExp q) :
    floatScale q = ratExp q :=
  max_eq_left hn

/-- floatPos with the powers of two written as integer powers in ℚ. -/
theorem floatPos_eq (q : ℚ) : floatPos q =
    (roundHalfEven (q * (2 : ℚ) ^ (52 - floatScale q)) : ℚ) *
      (2 : ℚ) ^ (floatScale q - 52) := by
  unfold floatPos
  rw [pow2_eq_zpow, pow2_eq_zpow]

/-- The binade specification of ratExp, with integer powers in ℚ. -/
theorem ratExp_spec2 (q : ℚ) (hq : 0 < q) :
    (2 : ℚ) ^ (ratExp q) ≤ q ∧ q < (2 : ℚ) ^ (ratExp q + 1) := by
  have h := ratExp_spec q hq
  rwa [pow2_eq_zpow, pow2_eq_zpow] at h

/-- Any power of two below q bounds its binade exponent from below. -/
theorem le_ratExp_of_pow2_le (q : ℚ) (hq : 0 < q) (a : ℤ) (h : pow2 a ≤ q) :
    a ≤ ratExp q := by
  by_contra hcon
  push_neg at hcon
  have h2 := (ratExp_spec q hq).2
  have h3 : pow2 (ratExp q + 1) ≤ pow2 a := pow2_le_pow2 (by omega)
  linarith

/-- Any power of two above q bounds its binade exponent from above. -/
theorem ratExp_lt_of_lt_pow2 (q : ℚ) (hq : 0 < q) (a : ℤ) (h : q < pow2 a) :
    ratExp q < a := by
  by_contra hcon
  push_neg at hcon
  have h1 := (ratExp_spec q hq).1
  have h3 : pow2 a ≤ pow2 (ratExp q) := pow2_le_pow2 hcon
  linarith

/-- Cast bridge for the significand bound 2^52. -/
theorem intCast_two_pow_52 : ((2 ^ 52 : ℤ) : ℚ) = (2 : ℚ) ^ (52 : ℤ) := by
  rw [show (52 : ℤ) = ((52 : ℕ) : ℤ) from by norm_num, zpow_natCast]
  push_cast
  ring

/-- Cast bridge for the significand bound 2^53. -/
theorem intCast_two_pow_53 : ((2 ^ 53 : ℤ) : ℚ) = (2 : ℚ) ^ (53 : ℤ) := by
  rw [show (53 : ℤ) = ((53 : ℕ) : ℤ) from by norm_num, zpow_natCast]
  push_cast
  ring

/-- In the normal range (binade exponent at least -1022) a positive
rational rounds to at least the bottom of its binade. -/
theorem floatPos_lower (q : ℚ) (hq : 0 < q) (hn : (-1022 : ℤ) ≤ ratExp q) :
    (2 : ℚ) ^ (ratExp q) ≤ floatPos q := by
  obtain ⟨hl, _⟩ := ratExp_spec2 q hq
  rw [floatPos_eq, floatScale_of_normal q hn]
  have hzp : (0 : ℚ) < (2 : ℚ) ^ (52 - ratExp q) := by positivity
  have hz : (2 : ℚ) ^ (52 : ℤ) ≤ q * (2 : ℚ) ^ (52 - ratExp q) := by
    have h1 := mul_le_mul_of_nonneg_right hl (le_of_lt hzp)
    rwa [← zpow_add₀ (two_ne_zero : (2 : ℚ) ≠ 0) (ratExp q) (52 - ratExp q),
      show (ratExp q + (52 - ratExp q)) = (52 : ℤ) from by ring] at h1
  have hround : ((2 ^ 52 : ℤ) : ℚ) ≤ (roundHalfEven (q * (2 : ℚ) ^ (52 - ratExp q)) : ℚ) := by
    have h2 : (2 ^ 52 : ℤ) ≤ ⌊q * (2 : ℚ) ^ (52 - ratExp q)⌋ :=
      Int.le_floor.mpr (by rw [intCast_two_pow_52]; exact hz)
    have h3 := floor_le_roundHalfEven (q * (2 : ℚ) ^ (52 - ratExp q))
    exact_mod_cast le_trans h2 h3
  calc (2 : ℚ) ^ (ratExp q) = ((2 ^ 52 : ℤ) : ℚ) * (2 : ℚ) ^ (ratExp q - 52) := by
        rw [intCast_two_pow_52, ← zpow_add₀ (two_ne_zero : (2 : ℚ) ≠ 0)]
        congr 1
        ring
    _ ≤ (roundHalfEven (q * (2 : ℚ) ^ (52 - ratExp q)) : ℚ) * (2 : ℚ) ^ (ratExp q - 52) :=
        mul_le_mul_of_nonneg_right hround (by positivity)

/-- A positive rational rounds to at most the top of its rounding scale,
subnormal range included. -/
theorem floatPos_upper (q : ℚ) (hq : 0 < q) :
    floatPos q ≤ (2 : ℚ) ^ (floatScale q + 1) := by
  obtain ⟨_, hu⟩ := ratExp_spec2 q hq
  have hzp : (0 : ℚ) < (2 : ℚ) ^ (52 - floatScale q) := by positivity
  have hu2 : q < (2 : ℚ) ^ (floatScale q + 1) :=
    lt_of_lt_of_le hu (zpow_le_zpow_right₀ (by norm_num)
      (by have := ratExp_le_floatScale q; omega))
  have hz : q * (2 : ℚ) ^ (52 - floatScale q) < (2 : ℚ) ^ (53 : ℤ) := by
    have h1 := mul_lt_mul_of_pos_right hu2 hzp
    rwa [← zpow_add₀ (two_ne_zero : (2 : ℚ) ≠ 0) (floatScale q + 1) (52 - floatScale q),
      show (floatScale q + 1 + (52 - floatScale q)) = (53 : ℤ) from by ring] at h1
  have hfloor : ⌊q * (2 : ℚ) ^ (52 - floatScale q)⌋ < 2 ^ 53 :=
    Int.floor_lt.mpr (by rw [intCast_two_pow_53]; exact hz)
  have hround : (roundHalfEven (q * (2 : ℚ) ^ (52 - floatScale q)) : ℤ) ≤ 2 ^ 53 := by
    have h3 := roundHalfEven_le (q * (2 : ℚ) ^ (52 - floatScale q))
    omega
  calc floatPos q
      = (roundHalfEven (q * (2 : ℚ) ^ (52 - floatScale q)) : ℚ) *
          (2 : ℚ) ^ (floatScale q - 52) :=
        floatPos_eq q
    _ ≤ ((2 ^ 53 : ℤ) : ℚ) * (2 : ℚ) ^ (floatScale q - 52) :=
        mul_le_mul_of_nonneg_right (by exact_mod_cast hround) (by positivity)
    _ = (2 : ℚ) ^ (floatScale q + 1) := by
        rw [intCast_two_pow_53, ← zpow_add₀ (two_ne_zero : (2 : ℚ) ≠ 0)]
        congr 1
        ring

/-- In the normal range the rounded value of a positive rational is
positive. -/
theorem floatPos_pos (q : ℚ) (hq : 0 < q) (hn : (-1022 : ℤ) ≤ ratExp q) :
    0 < floatPos q :=
  lt_of_lt_of_le (by positivity : (0 : ℚ) < (2 : ℚ) ^ (ratExp q)) (floatPos_lower q hq hn)

/-- The rounded value of a nonnegative rational is nonnegative (tiny
values flush to zero, never below). -/
theorem floatPos_nonneg (q : ℚ) (hq : 0 ≤ q) : 0 ≤ floatPos q := by
  rw [floatPos_eq]
  apply mul_nonneg _ (by positivity)
  have h1 : (0 : ℤ) ≤ ⌊q * (2 : ℚ) ^ (52 - floatScale q)⌋ :=
    Int.floor_nonneg.mpr (mul_nonneg hq (by positivity))
  have h2 := floor_le_roundHalfEven (q * (2 : ℚ) ^ (52 - floatScale q))
  exact_mod_cast le_trans h1 h2

/-- Correct rounding to binary64 is monotone on positive rationals, also
across the subnormal range. -/
theorem floatPos_mono (x y : ℚ) (hx : 0 < x) (hxy : x ≤ y) : floatPos x ≤ floatPos y := by
  have hy : 0 < y := lt_of_lt_of_le hx hxy
  have hee : ratExp x ≤ ratExp y := by
    by_contra hcon
    push_neg at hcon
    have h1 := (ratExp_spec2 x hx).1
    have h2 := (ratExp_spec2 y hy).2
    have h3 : (2 : ℚ) ^ (ratExp y + 1) ≤ (2 : ℚ) ^ (ratExp x) :=
      zpow_le_zpow_right₀ (by norm_num) (by omega)
    linarith
  have hss : floatScale x ≤ floatScale y := max_le_max hee le_rfl
  rcases eq_or_lt_of_le hss with heq | hlt
  · rw [floatPos_eq, floatPos_eq, ← heq]
    have hz : x * (2 : ℚ) ^ (52 - floatScale x) ≤ y * (2 : ℚ) ^ (52 - floatScale x) :=
      mul_le_mul_of_nonneg_right hxy (by positivity)
    have hr := roundHalfEven_mono hz
    exact mul_le_mul_of_nonneg_right (by exact_mod_cast hr) (by positivity)
  · have hny : floatScale y = ratExp y := by
      rcases max_cases (ratExp y) (-1022 : ℤ) with ⟨h1, _⟩ | ⟨h1, _⟩
      · exact h1
      · have h4 := neg1022_le_floatScale x
        unfold floatScale at hlt h4 ⊢
        omega
    have hn_y : (-1022 : ℤ) ≤ ratExp y := by
      rw [← hny]
      exact neg1022_le_floatScale y
    calc floatPos x ≤ (2 : ℚ) ^ (floatScale x + 1) := floatPos_upper x hx
      _ ≤ (2 : ℚ) ^ (ratExp y) :=
          zpow_le_zpow_right₀ (by norm_num) (by rw [← hny]; omega)
      _ ≤ floatPos y := floatPos_lower y hy hn_y

/-- In the normal range correct rounding has relative error at most
2^(-53) on positives. -/
theorem floatPos_error (q : ℚ) (hq : 0 < q) (hn : (-1022 : ℤ) ≤ ratExp q) :
    |floatPos q - q| ≤ q * (2 : ℚ) ^ (-53 : ℤ) := by
  obtain ⟨hl, _⟩ := ratExp_spec2 q hq
  have hfps : floatPos q =
      (roundHalfEven (q * (2 : ℚ) ^ (52 - ratExp q)) : ℚ) * (2 : ℚ) ^ (ratExp q - 52) := by
    rw [floatPos_eq, floatScale_of_normal q hn]
  have h1 := roundHalfEven_le_add_half (q * (2 : ℚ) ^ (52 - ratExp q))
  have h2 := sub_half_le_roundHalfEven (q * (2 : ℚ) ^ (52 - ratExp q))
  have hqz : q * (2 : ℚ) ^ (52 - ratExp q) * (2 : ℚ) ^ (ratExp q - 52) = q := by
    rw [mul_assoc, ← zpow_add₀ (two_ne_zero : (2 : ℚ) ≠ 0),
      show (52 - ratExp q + (ratExp q - 52)) = (0 : ℤ) from by ring, zpow_zero, mul_one]
  have hfp : floatPos q - q =
      ((roundHalfEven (q * (2 : ℚ) ^ (52 - ratExp q)) : ℚ) -
        q * (2 : ℚ) ^ (52 - ratExp q)) * (2 : ℚ) ^ (ratExp q - 52) := by
    rw [hfps, sub_mul, hqz]
  rw [hfp, abs_mul, abs_of_pos (by positivity : (0 : ℚ) < (2 : ℚ) ^ (ratExp q - 52))]
  have habs : |(roundHalfEven (q * (2 : ℚ) ^ (52 - ratExp q)) : ℚ) -
      q * (2 : ℚ) ^ (52 - ratExp q)| ≤ 1 / 2 := by
    rw [abs_le]
    constructor <;> linarith
  calc |(roundHalfEven (q * (2 : ℚ) ^ (52 - ratExp q)) : ℚ) -
      q * (2 : ℚ) ^ (52 - ratExp q)| * (2 : ℚ) ^ (ratExp q - 52)
      ≤ 1 / 2 * (2 : ℚ) ^ (ratExp q - 52) :=
        mul_le_mul_of_nonneg_right habs (by positivity)
    _ ≤ (2 : ℚ) ^ (ratExp q) * (2 : ℚ) ^ (-53 : ℤ) := by
        rw [← zpow_add₀ (two_ne_zero : (2 : ℚ) ≠ 0)]
        rw [show (1 : ℚ) / 2 = (2 : ℚ) ^ (-1 : ℤ) from by norm_num]
        rw [← zpow_add₀ (two_ne_zero : (2 : ℚ) ≠ 0)]
        exact zpow_le_zpow_right₀ (by norm_num) (by omega)
    _ ≤ q * (2 : ℚ) ^ (-53 : ℤ) :=
        mul_le_mul_of_nonneg_right hl (by positivity)

/-- floatOfRat on a positive argument is the positive rounding. -/
theorem floatOfRat_of_pos (q : ℚ) (hq : 0 < q) : floatOfRat q = floatPos q := by
  unfold floatOfRat
  rw [if_neg (ne_of_gt hq), if_neg (not_lt.mpr (le_of_lt hq))]

/-- floatOfRat maps zero to zero. -/
theorem floatOfRat_zero : floatOfRat 0 = 0 := by
  unfold floatOfRat
  rw [if_pos rfl]

/-- floatOfRat on a negative argument is minus the rounding of the
absolute value. -/
theorem floatOfRat_of_neg (q : ℚ) (hq : q < 0) : floatOfRat q = -(floatPos (-q)) := by
  unfold floatOfRat
  rw [if_neg (ne_of_lt hq), if_pos hq]

/-- floatOfRat preserves positivity in the normal range. -/
theorem floatOfRat_pos (q : ℚ) (hq : 0 < q) (hn : (-1022 : ℤ) ≤ ratExp q) :
    0 < floatOfRat q := by
  rw [floatOfRat_of_pos q hq]
  exact floatPos_pos q hq hn

/-- floatOfRat of a nonpositive argument is nonpositive (tiny negative
values flush to negative zero, modelled as 0). -/
theorem floatOfRat_nonpos (q : ℚ) (hq : q ≤ 0) : floatOfRat q ≤ 0 := by
  rcases lt_or_eq_of_le hq with hlt | heq
  · rw [floatOfRat_of_neg q hlt]
    have h1 := floatPos_nonneg (-q) (by linarith)
    linarith
  · rw [heq, floatOfRat_zero]

/-- floatOfRat preserves strict negativity when the magnitude is in the
normal range. -/
theorem floatOfRat_neg (q : ℚ) (hq : q < 0) (hn : (-1022 : ℤ) ≤ ratExp (-q)) :
    floatOfRat q < 0 := by
  rw [floatOfRat_of_neg q hq]
  have h1 := floatPos_pos (-q) (by linarith) hn
  linarith

/-- floatOfRat is monotone on positive arguments. -/
theorem floatOfRat_mono_pos (x y : ℚ) (hx : 0 < x) (hxy : x ≤ y) :
    floatOfRat x ≤ floatOfRat y := by
  rw [floatOfRat_of_pos x hx, floatOfRat_of_pos y (lt_of_lt_of_le hx hxy)]
  exact floatPos_mono x y hx hxy

/-- floatOfRat has relative error at most 2^(-53) on positive arguments
in the normal range. -/
theorem floatOfRat_error (q : ℚ) (hq : 0 < q) (hn : (-1022 : ℤ) ≤ ratExp q) :
    |floatOfRat q - q| ≤ q * (2 : ℚ) ^ (-53 : ℤ) := by
  rw [floatOfRat_of_pos q hq]
  exact floatPos_error q hq hn

/-- A positive value below 2^1023 converts to a float below 2^1024 and
hence does not make Python raise OverflowError. -/
theorem not_floatOverflows_of_lt (q : ℚ) (hq : 0 < q) (h : q < pow2 1023) :
    floatOfRat q < pow2 1024 ∧ ¬ floatOverflows q := by
  have he : ratExp q < 1023 := ratExp_lt_of_lt_pow2 q hq 1023 h
  have hs : floatScale q ≤ 1022 := max_le (by omega) (by norm_num)
  have h1 : floatPos q ≤ (2 : ℚ) ^ (floatScale q + 1) := floatPos_upper q hq
  have h2 : (2 : ℚ) ^ (floatScale q + 1) ≤ (2 : ℚ) ^ (1023 : ℤ) :=
    zpow_le_zpow_right₀ (by norm_num) (by omega)
  have h3 : (2 : ℚ) ^ (1023 : ℤ) < (2 : ℚ) ^ (1024 : ℤ) :=
    zpow_lt_zpow_right₀ (by norm_num) (by norm_num)
  have hlt : floatOfRat q < pow2 1024 := by
    rw [floatOfRat_of_pos q hq, pow2_eq_zpow]
    linarith
  refine ⟨hlt, ?_⟩
  unfold floatOverflows
  rw [not_le, abs_of_nonneg (by
    rw [floatOfRat_of_pos q hq]
    exact floatPos_nonneg q (le_of_lt hq))]
  exact hlt

/-- Overflow of a negative value is overflow of its magnitude. -/
theorem floatOverflows_neg_iff (q : ℚ) (hq : q < 0) :
    (floatOverflows q ↔ floatOverflows (-q)) := by
  unfold floatOverflows
  rw [floatOfRat_of_neg q hq, abs_neg, floatOfRat_of_pos (-q) (by linarith)]

/-- The sorted sequence keeps the generated length 53 (helper). -/
theorem sorted_length :
    (PythagoreanSystem.sort_ratios PythagoreanSystem.generate_ratios).length = 53 :=
  (List.perm_insertionSort _ _).length_eq.trans generated_length

/-- Every entry of the sorted sequence is at least 1 (helper). -/
theorem sorted_all_ge_one :
    ∀ r ∈ PythagoreanSystem.sort_ratios PythagoreanSystem.generate_ratios, (1 : ℚ) ≤ r := by
  with_unfolding_all decide

/-- getD below the length is getElem (helper). -/
theorem getD_eq_getElem_of_lt {α : Type} (l : List α) (d : α) (i : ℕ) (h : i < l.length) :
    l.getD i d = l[i] := by
  rw [List.getD_eq_getElem?_getD, List.getElem?_eq_getElem h, Option.getD_some]

/-- For every fundamental, the i-th output frequency is exactly the
correctly rounded value of the i-th sorted ratio times the fundamental
(helper shared by the frequency results). -/
theorem frequencies_getD (g : ℚ) (i : ℕ) (hi : i < 53) :
    (PythagoreanSystem.calculate_frequencies
        (PythagoreanSystem.sort_ratios PythagoreanSystem.generate_ratios) g).getD i 0 =
      floatOfRat
        ((PythagoreanSystem.sort_ratios
            PythagoreanSystem.generate_ratios).getD i 0 * g) := by
  have hi2 : i < (PythagoreanSystem.sort_ratios
      PythagoreanSystem.generate_ratios).length := by
    rw [sorted_length]; exact hi
  have hi1 : i < (PythagoreanSystem.calculate_frequencies
      (PythagoreanSystem.sort_ratios PythagoreanSystem.generate_ratios) g).length := by
    unfold PythagoreanSystem.calculate_frequencies
    rw [List.length_map]
    exact hi2
  rw [getD_eq_getElem_of_lt _ _ i hi1, getD_eq_getElem_of_lt _ _ i hi2]
  unfold PythagoreanSystem.calculate_frequencies
  rw [List.getElem_map]

/-- Every entry of the sorted sequence is below 2 (helper). -/
theorem sorted_all_lt_two :
    ∀ r ∈ PythagoreanSystem.sort_ratios PythagoreanSystem.generate_ratios, r < (2 : ℚ) := by
  with_unfolding_all decide

/-- pow2 at 1 is 2 (helper). -/
theorem pow2_one : pow2 1 = 2 := by
  with_unfolding_all decide

/-- A ratio in [1, 2) times a fundamental in the safe range
[2^(-1021), 2^1022] lands strictly inside the normal binary64 range
(helper shared by the frequency-range results). -/
theorem product_range (r f : ℚ) (hr1 : 1 ≤ r) (hr2 : r < 2)
    (hlow : pow2 (-1021) ≤ f) (hhigh : f ≤ pow2 1022) :
    0 < r * f ∧ pow2 (-1021) ≤ r * f ∧ r * f < pow2 1023 ∧
    (-1022 : ℤ) ≤ ratExp (r * f) := by
  have hf : 0 < f := lt_of_lt_of_le (pow2_pos _) hlow
  have hpos : 0 < r * f := mul_pos (lt_of_lt_of_le one_pos hr1) hf
  have hge : pow2 (-1021) ≤ r * f :=
    le_trans hlow (le_mul_of_one_le_left (le_of_lt hf) hr1)
  have hlt : r * f < pow2 1023 := by
    have h1 : r * f < 2 * f := by nlinarith
    have h3 : (2 : ℚ) * pow2 1022 = pow2 1023 := by
      rw [show (1023 : ℤ) = 1 + 1022 from by norm_num, pow2_add, pow2_one]
    linarith
  have hexp : (-1021 : ℤ) ≤ ratExp (r * f) := le_ratExp_of_pow2_le _ hpos _ hge
  exact ⟨hpos, hge, hlt, by omega⟩

/-- C5 (amended): for a positive fundamental in the range
[2^(-1021), 2^1022], where every product ratio times fundamental stays in
the normal binary64 range, each output frequency is the correctly rounded
value of ratio times fundamental with relative error at most 2^(-53), and
the 53 frequencies are pairwise non-decreasing (order-preserving).
Outside this range the real program underflows to zero or raises
OverflowError, as the counterexample below shows. -/
theorem c5_frequency_conversion (f : ℚ) (hf : 0 < f)
    (hlow : pow2 (-1021) ≤ f) (hhigh : f ≤ pow2 1022) :
    (PythagoreanSystem.calculate_frequencies
        (PythagoreanSystem.sort_ratios PythagoreanSystem.generate_ratios) f).length = 53 ∧
    (∀ i, i < 53 →
      (PythagoreanSystem.calculate_frequencies
          (PythagoreanSystem.sort_ratios PythagoreanSystem.generate_ratios) f).getD i 0 =
        floatOfRat
          ((PythagoreanSystem.sort_ratios
              PythagoreanSystem.generate_ratios).getD i 0 * f)) ∧
    (∀ i, i < 53 →
      |(PythagoreanSystem.calculate_frequencies
            (PythagoreanSystem.sort_ratios PythagoreanSystem.generate_ratios) f).getD i 0 -
          (PythagoreanSystem.sort_ratios
              PythagoreanSystem.generate_ratios).getD i 0 * f| ≤
        ((PythagoreanSystem.sort_ratios
            PythagoreanSystem.generate_ratios).getD i 0 * f) * (2 : ℚ) ^ (-53 : ℤ)) ∧
    (PythagoreanSystem.calculate_frequencies
        (PythagoreanSystem.sort_ratios PythagoreanSystem.generate_ratios) f).Pairwise
      (fun a b : ℚ => a ≤ b) := by
  have hlenf : (PythagoreanSystem.calculate_frequencies
      (PythagoreanSystem.sort_ratios PythagoreanSystem.generate_ratios) f).length = 53 := by
    unfold PythagoreanSystem.calculate_frequencies
    rw [List.length_map]
    exact sorted_length
  refine ⟨hlenf, fun i hi => frequencies_getD f i hi, ?_, ?_⟩
  · intro i hi
    have hi2 : i < (PythagoreanSystem.sort_ratios
        PythagoreanSystem.generate_ratios).length := by
      rw [sorted_length]; exact hi
    rw [frequencies_getD f i hi]
    have hr1 : (1 : ℚ) ≤ (PythagoreanSystem.sort_ratios
        PythagoreanSystem.generate_ratios).getD i 0 := by
      rw [getD_eq_getElem_of_lt _ _ i hi2]
      exact sorted_all_ge_one _ (List.getElem_mem hi2)
    have hr2 : (PythagoreanSystem.sort_ratios
        PythagoreanSystem.generate_ratios).getD i 0 < 2 := by
      rw [getD_eq_getElem_of_lt _ _ i hi2]
      exact sorted_all_lt_two _ (List.getElem_mem hi2)
    obtain ⟨hpos, _, _, hexp⟩ := product_range _ f hr1 hr2 hlow hhigh
    exact floatOfRat_error _ hpos hexp
  · unfold PythagoreanSystem.calculate_frequencies
    rw [List.pairwise_map]
    refine List.Pairwise.imp ?_ sorted_pairwise
    intro a b hab
    exact floatOfRat_mono_pos (a * f) (b * f)
      (mul_pos (lt_of_lt_of_le one_pos hab.1) hf)
      (mul_le_mul_of_nonneg_right hab.2 (le_of_lt hf))

/-- Witness for C5 at fundamental 100: all three hypotheses hold there and
the frequency sequence is pairwise non-decreasing. -/
theorem c5_frequency_conversion_witness :
    (0 < (100 : ℚ) ∧ pow2 (-1021) ≤ (100 : ℚ) ∧ (100 : ℚ) ≤ pow2 1022) ∧
    (PythagoreanSystem.calculate_frequencies
        (PythagoreanSystem.sort_ratios PythagoreanSystem.generate_ratios) 100).Pairwise
      (fun a b : ℚ => a ≤ b) :=
  ⟨⟨by norm_num, by with_unfolding_all decide, by with_unfolding_all decide⟩,
    (c5_frequency_conversion 100 (by norm_num) (by with_unfolding_all decide)
      (by with_unfolding_all decide)).2.2.2⟩

/-- C5 counterexample: at the positive fundamental 2^(-1100), below the
binary64 subnormal range, the program's first frequency is float 0.0, so
it is not the exact product up to the claimed representation error: the
relative error is 1, far above 2^(-53).  (pow2 (-53) is the integer power
2^(-53), as the first conjunct records.) -/
theorem c5_flush_to_zero_counterexample :
    pow2 (-53) = (2 : ℚ) ^ (-53 : ℤ) ∧
    0 < pow2 (-1100) ∧
    (PythagoreanSystem.calculate_frequencies
        (PythagoreanSystem.sort_ratios PythagoreanSystem.generate_ratios)
        (pow2 (-1100))).getD 0 0 = 0 ∧
    ¬ (|(PythagoreanSystem.calculate_frequencies
          (PythagoreanSystem.sort_ratios PythagoreanSystem.generate_ratios)
          (pow2 (-1100))).getD 0 0 -
        (PythagoreanSystem.sort_ratios
            PythagoreanSystem.generate_ratios).getD 0 0 * pow2 (-1100)| ≤
      ((PythagoreanSystem.sort_ratios
          PythagoreanSystem.generate_ratios).getD 0 0 * pow2 (-1100)) * pow2 (-53)) :=
  ⟨pow2_eq_zpow (-53), by with_unfolding_all decide, by with_unfolding_all decide,
    by with_unfolding_all decide⟩

/-- C9 (amended): conversion always yields 53 values in the model; for a
fundamental in the safe range [2^(-1021), 2^1022] every frequency is a
positive finite float below the overflow threshold 2^1024 and no
conversion raises OverflowError; a zero fundamental yields zeros and a
negative one yields nonpositive frequencies without rejection, strictly
negative and overflow-free when its magnitude is in the safe range.
Outside the safe range the real program underflows to 0.0 or raises
OverflowError, as the counterexample below shows. -/
theorem c9_no_errors_in_float_range (f : ℚ) :
    (PythagoreanSystem.calculate_frequencies
        (PythagoreanSystem.sort_ratios PythagoreanSystem.generate_ratios) f).length = 53 ∧
    (pow2 (-1021) ≤ f → f ≤ pow2 1022 →
      (∀ x ∈ PythagoreanSystem.calculate_frequencies
          (PythagoreanSystem.sort_ratios PythagoreanSystem.generate_ratios) f,
        0 < x ∧ x < pow2 1024) ∧
      (∀ r ∈ PythagoreanSystem.sort_ratios PythagoreanSystem.generate_ratios,
        ¬ floatOverflows (r * f))) ∧
    (f = 0 → ∀ x ∈ PythagoreanSystem.calculate_frequencies
        (PythagoreanSystem.sort_ratios PythagoreanSystem.generate_ratios) f, x = 0) ∧
    (f < 0 → ∀ x ∈ PythagoreanSystem.calculate_frequencies
        (PythagoreanSystem.sort_ratios PythagoreanSystem.generate_ratios) f, x ≤ 0) ∧
    (-(pow2 1022) ≤ f → f ≤ -(pow2 (-1021)) →
      (∀ x ∈ PythagoreanSystem.calculate_frequencies
          (PythagoreanSystem.sort_ratios PythagoreanSystem.generate_ratios) f, x < 0) ∧
      (∀ r ∈ PythagoreanSystem.sort_ratios PythagoreanSystem.generate_ratios,
        ¬ floatOverflows (r * f))) := by
  have hlenf : (PythagoreanSystem.calculate_frequencies
      (PythagoreanSystem.sort_ratios PythagoreanSystem.generate_ratios) f).length = 53 := by
    unfold PythagoreanSystem.calculate_frequencies
    rw [List.length_map]
    exact sorted_length
  refine ⟨hlenf, ?_, ?_, ?_, ?_⟩
  · intro hlow hhigh
    constructor
    · intro x hx
      obtain ⟨r, hr, rfl⟩ := List.mem_map.mp hx
      obtain ⟨hpos, _, hlt, hexp⟩ :=
        product_range r f (sorted_all_ge_one r hr) (sorted_all_lt_two r hr) hlow hhigh
      exact ⟨floatOfRat_pos _ hpos hexp, (not_floatOverflows_of_lt _ hpos hlt).1⟩
    · intro r hr
      obtain ⟨hpos, _, hlt, _⟩ :=
        product_range r f (sorted_all_ge_one r hr) (sorted_all_lt_two r hr) hlow hhigh
      exact (not_floatOverflows_of_lt _ hpos hlt).2
  · intro hf x hx
    obtain ⟨r, hr, rfl⟩ := List.mem_map.mp hx
    rw [hf, mul_zero]
    exact floatOfRat_zero
  · intro hf x hx
    obtain ⟨r, hr, rfl⟩ := List.mem_map.mp hx
    have hr1 : (1 : ℚ) ≤ r := sorted_all_ge_one r hr
    exact floatOfRat_nonpos _
      (le_of_lt (mul_neg_of_pos_of_neg (lt_of_lt_of_le one_pos hr1) hf))
  · intro h1 h2
    have hlow2 : pow2 (-1021) ≤ -f := by linarith
    have hhigh2 : -f ≤ pow2 1022 := by linarith
    have hfneg : f < 0 := by
      have := pow2_pos (-1021)
      linarith
    constructor
    · intro x hx
      obtain ⟨r, hr, rfl⟩ := List.mem_map.mp hx
      have hr1 : (1 : ℚ) ≤ r := sorted_all_ge_one r hr
      obtain ⟨hpos, _, _, hexp⟩ :=
        product_range r (-f) hr1 (sorted_all_lt_two r hr) hlow2 hhigh2
      have hneg : -(r * f) = r * (-f) := by ring
      refine floatOfRat_neg _ (mul_neg_of_pos_of_neg (lt_of_lt_of_le one_pos hr1) hfneg) ?_
      rw [hneg]
      exact hexp
    · intro r hr
      have hr1 : (1 : ℚ) ≤ r := sorted_all_ge_one r hr
      obtain ⟨hpos, _, hlt, _⟩ :=
        product_range r (-f) hr1 (sorted_all_lt_two r hr) hlow2 hhigh2
      have hq' : r * f < 0 := mul_neg_of_pos_of_neg (lt_of_lt_of_le one_pos hr1) hfneg
      rw [floatOverflows_neg_iff _ hq', show -(r * f) = r * (-f) from by ring]
      exact (not_floatOverflows_of_lt _ hpos hlt).2

/-- Witness for C9 at fundamental 100: the range hypotheses hold and the
first output frequency is positive and below the overflow threshold. -/
theorem c9_no_errors_in_float_range_witness :
    (pow2 (-1021) ≤ (100 : ℚ) ∧ (100 : ℚ) ≤ pow2 1022) ∧
    (0 < (PythagoreanSystem.calculate_frequencies
        (PythagoreanSystem.sort_ratios PythagoreanSystem.generate_ratios) 100).getD 0 0 ∧
      (PythagoreanSystem.calculate_frequencies
        (PythagoreanSystem.sort_ratios PythagoreanSystem.generate_ratios) 100).getD 0 0 <
        pow2 1024) :=
  ⟨⟨by with_unfolding_all decide, by with_unfolding_all decide⟩,
    ((c9_no_errors_in_float_range 100).2.1 (by with_unfolding_all decide)
      (by with_unfolding_all decide)).1 _ (by with_unfolding_all decide)⟩

/-- C9 counterexample: the finite positive fundamental 2^(-1100) makes the
first frequency exactly 0, not positive (Python returns 0.0 there), and
at the finite positive fundamental 2^2000 the very first conversion
reaches the overflow threshold, where Python raises OverflowError instead
of producing a frequency. -/
theorem c9_degenerate_fundamental_counterexample :
    0 < pow2 (-1100) ∧
    (PythagoreanSystem.calculate_frequencies
        (PythagoreanSystem.sort_ratios PythagoreanSystem.generate_ratios)
        (pow2 (-1100))).getD 0 0 = 0 ∧
    0 < pow2 2000 ∧
    floatOverflows
      ((PythagoreanSystem.sort_ratios
          PythagoreanSystem.generate_ratios).getD 0 0 * pow2 2000) := by
  refine ⟨by with_unfolding_all decide, by with_unfolding_all decide,
    by with_unfolding_all decide, ?_⟩
  unfold floatOverflows
  with_unfolding_all decide

/-- The two generation loops of the two source files compute the same
list for every seed and iteration count (helper). -/
theorem cicloGen_eq_genLoop : ∀ (n : ℕ) (q : ℚ),
    SistemaPitagorico.cicloGen q n = PythagoreanSystem.genLoop q n := by
  intro n
  induction n with
  | zero => intro q; rfl
  | succ n ih =>
    intro q
    simp only [SistemaPitagorico.cicloGen, PythagoreanSystem.genLoop]
    rw [ih]

/-- The Italian and English generators compute the same 53 ratios
(helper). -/
theorem genera_eq_generate :
    SistemaPitagorico.genera_rapporti = PythagoreanSystem.generate_ratios := by
  unfold SistemaPitagorico.genera_rapporti PythagoreanSystem.generate_ratios
  rw [cicloGen_eq_genLoop]

/-- C6: the exact ratio sequence is independent of the configuration: any
two configurations of the two implementations produce identical sorted
ratio sequences; the defaults give effective fundamentals 100 and 64; and
each system's frequencies are exactly its ratios scaled through floatOfRat
by its own effective fundamental. -/
theorem c6_ratios_configuration_independent :
    (∀ f o f2 o2 : ℚ,
      (PythagoreanSystem.create f o).ratios = (PythagoreanSystem.create f2 o2).ratios) ∧
    (∀ f o f2 o2 : ℚ,
      (PythagoreanSystem.create f o).ratios = (SistemaPitagorico.crea f2 o2).rapporti) ∧
    (PythagoreanSystem.create 100 1).fundamental = 100 ∧
    (SistemaPitagorico.crea 32 2).fondamentale = 64 ∧
    (∀ f o : ℚ, (PythagoreanSystem.create f o).frequencies =
      (PythagoreanSystem.create f o).ratios.map (fun r => floatOfRat (r * (f * o)))) ∧
    (∀ f o : ℚ, (SistemaPitagorico.crea f o).frequenze =
      (SistemaPitagorico.crea f o).rapporti.map (fun r => floatOfRat (r * (f * o)))) := by
  refine ⟨fun f o f2 o2 => rfl, ?_,
    by norm_num [PythagoreanSystem.create], by norm_num [SistemaPitagorico.crea],
    fun f o => rfl, fun f o => rfl⟩
  intro f o f2 o2
  show PythagoreanSystem.sort_ratios PythagoreanSystem.generate_ratios =
    SistemaPitagorico.ordina_rapporti SistemaPitagorico.genera_rapporti
  rw [genera_eq_generate]
  rfl

/-- Witness for C6 at the two default configurations: the default English
system and the default Italian system hold identical sorted ratio
sequences. -/
theorem c6_ratios_configuration_independent_witness :
    (PythagoreanSystem.create 100 1).ratios = (SistemaPitagorico.crea 32 2).rapporti :=
  c6_ratios_configuration_independent.2.1 100 1 32 2

/-- C7: with the defaults fundamental 100 and octave 1, the effective
fundamental is 100, the sorted sequence starts at exactly 1/1 with
frequency exactly 100, ends at its maximum entry, which is strictly below
2, and the last frequency is strictly below 200. -/
theorem c7_default_scenario :
    (PythagoreanSystem.create 100 1).fundamental = 100 ∧
    (PythagoreanSystem.create 100 1).ratios.getD 0 0 = 1 ∧
    (PythagoreanSystem.create 100 1).frequencies.getD 0 0 = 100 ∧
    (PythagoreanSystem.create 100 1).ratios.getD 52 0 < 2 ∧
    (∀ i, i < (PythagoreanSystem.create 100 1).ratios.length →
      (PythagoreanSystem.create 100 1).ratios.getD i 0 ≤
        (PythagoreanSystem.create 100 1).ratios.getD 52 0) ∧
    (PythagoreanSystem.create 100 1).frequencies.getD 52 0 < 200 := by
  with_unfolding_all decide

/-- Witness for C7 at index 3: the bound hypothesis holds there and the
fourth sorted ratio is at most the last one. -/
theorem c7_default_scenario_witness :
    3 < (PythagoreanSystem.create 100 1).ratios.length ∧
    (PythagoreanSystem.create 100 1).ratios.getD 3 0 ≤
      (PythagoreanSystem.create 100 1).ratios.getD 52 0 :=
  ⟨by with_unfolding_all decide,
    c7_default_scenario.2.2.2.2.1 3 (by with_unfolding_all decide)⟩
